import Mathlib

/-!
Verification of the `bufpool` repository: a recycling byte-buffer allocator
with a growable buffer facade (`bufpool` crate: `BufPool` / `Buf`), a
fixed-capacity facade (`bufpool-fixed` crate: `FixedBufPool` / `FixedBuf`),
and an earlier growable variant (the crate at `src/`, modelled in the `V0`
namespace).

The Rust code is shallowly embedded: machine integers (`usize`, `u8`) become
`Nat`, with the 64-bit range made explicit where it matters; raw memory
blocks become `List Nat` payloads (growable facade) or a flat byte memory
`Nat → Nat` (fixed facade, whose buffers alias pool memory through a packed
word); panics/asserts become `Option`/`Except` failure values; the per-size
mutex-protected `VecDeque` free lists become `Nat → List _` FIFO queues; and
the system allocator becomes a bump allocator over fresh addresses carried in
the pool state.
-/

namespace Bufpool

/-- Fuel-based computation of Rust `usize::next_power_of_two`
(`let cap = cap.next_power_of_two()` in `BufPool::allocate`,
`FixedBufPool::allocate_with_zeros`): the least power of two that is `≥ n`,
with `0` rounded up to `1`.  The fuel argument only makes the recursion
structural; `nextPow2` supplies enough fuel for every input. -/
def nextPow2Go : Nat → Nat → Nat
  | 0, _ => 1
  | fuel + 1, n => if n ≤ 1 then 1 else 2 * nextPow2Go fuel ((n + 1) / 2)

/-- Rust `usize::next_power_of_two` on in-range inputs (no 64-bit overflow). -/
def nextPow2 (n : Nat) : Nat := nextPow2Go n n

/-- Fuel-based computation of Rust `usize::ilog2` (floor of the base-2
logarithm; the sources only call it on nonzero capacities). -/
def ilog2Go : Nat → Nat → Nat
  | 0, _ => 0
  | fuel + 1, n => if n < 2 then 0 else ilog2Go fuel (n / 2) + 1

/-- Rust `usize::ilog2` for nonzero `n`. -/
def ilog2 (n : Nat) : Nat := ilog2Go n n

/-- Fuel-based computation of Rust `usize::is_power_of_two` (true exactly on
`1, 2, 4, 8, ...`; false on `0`). -/
def isPow2Go : Nat → Nat → Bool
  | 0, _ => false
  | fuel + 1, n =>
    if n = 0 then false
    else if n = 1 then true
    else n % 2 == 0 && isPow2Go fuel (n / 2)

/-- Rust `usize::is_power_of_two`. -/
def isPow2 (n : Nat) : Bool := isPow2Go n n

/-- `usize::MAX + 1`. -/
def USIZE : Nat := 2 ^ 64

theorem nextPow2Go_spec (fuel : Nat) : ∀ n, n ≤ fuel →
    1 ≤ nextPow2Go fuel n ∧ n ≤ nextPow2Go fuel n ∧
    (∃ k, nextPow2Go fuel n = 2 ^ k) ∧
    (∀ j, n ≤ 2 ^ j → nextPow2Go fuel n ≤ 2 ^ j) := by
  induction fuel with
  | zero =>
    intro n hn
    have hn0 : n = 0 := by omega
    subst hn0
    refine ⟨le_refl 1, Nat.zero_le 1, ⟨0, rfl⟩, ?_⟩
    intro j _
    exact Nat.one_le_two_pow
  | succ fuel ih =>
    intro n hn
    by_cases h1 : n ≤ 1
    · simp only [nextPow2Go, if_pos h1]
      refine ⟨le_refl 1, h1, ⟨0, rfl⟩, ?_⟩
      intro j _
      exact Nat.one_le_two_pow
    · have hm : (n + 1) / 2 ≤ fuel := by omega
      obtain ⟨hpos, hle, ⟨k, hk⟩, hmin⟩ := ih ((n + 1) / 2) hm
      simp only [nextPow2Go, if_neg h1]
      refine ⟨by omega, by omega, ⟨k + 1, by rw [hk]; ring⟩, ?_⟩
      intro j hj
      have hj1 : 1 ≤ j := by
        by_contra hc
        have : j = 0 := by omega
        subst this
        simp at hj
        omega
      have h2 : 2 ^ j = 2 * 2 ^ (j - 1) := by
        conv_lhs => rw [show j = (j - 1) + 1 by omega]
        rw [pow_succ]
        ring
      have hhalf : (n + 1) / 2 ≤ 2 ^ (j - 1) := by omega
      have := hmin (j - 1) hhalf
      omega

theorem nextPow2_pos (n : Nat) : 1 ≤ nextPow2 n :=
  (nextPow2Go_spec n n (le_refl n)).1

theorem le_nextPow2 (n : Nat) : n ≤ nextPow2 n :=
  (nextPow2Go_spec n n (le_refl n)).2.1

theorem nextPow2_isPow2 (n : Nat) : ∃ k, nextPow2 n = 2 ^ k :=
  (nextPow2Go_spec n n (le_refl n)).2.2.1

theorem nextPow2_min (n j : Nat) (h : n ≤ 2 ^ j) : nextPow2 n ≤ 2 ^ j :=
  (nextPow2Go_spec n n (le_refl n)).2.2.2 j h

theorem nextPow2_two_pow (k : Nat) : nextPow2 (2 ^ k) = 2 ^ k :=
  Nat.le_antisymm (nextPow2_min _ k (le_refl _)) (le_nextPow2 _)

theorem ilog2Go_two_pow (fuel : Nat) : ∀ k, 2 ^ k ≤ fuel → ilog2Go fuel (2 ^ k) = k := by
  induction fuel with
  | zero =>
    intro k hk
    exact absurd hk (by simp [Nat.pos_of_ne_zero, Nat.pow_pos])
  | succ fuel ih =>
    intro k hk
    match k with
    | 0 => simp [ilog2Go]
    | k + 1 =>
      have hge : ¬ 2 ^ (k + 1) < 2 := by
        have : 2 ^ 1 ≤ 2 ^ (k + 1) := Nat.pow_le_pow_right (by omega) (by omega)
        omega
      simp only [ilog2Go, if_neg hge]
      have hdiv : 2 ^ (k + 1) / 2 = 2 ^ k := by
        rw [pow_succ, Nat.mul_div_cancel]
        omega
      rw [hdiv, ih k (by have : 2 ^ k < 2 ^ (k + 1) := Nat.pow_lt_pow_right (by omega) (by omega); omega)]

theorem ilog2_two_pow (k : Nat) : ilog2 (2 ^ k) = k :=
  ilog2Go_two_pow (2 ^ k) k (le_refl _)

theorem isPow2Go_iff (fuel : Nat) : ∀ n, n ≤ fuel → (isPow2Go fuel n = true ↔ ∃ k, n = 2 ^ k) := by
  induction fuel with
  | zero =>
    intro n hn
    have hn0 : n = 0 := by omega
    subst hn0
    refine ⟨fun h => by simp [isPow2Go] at h, ?_⟩
    rintro ⟨k, hk⟩
    have : 0 < 2 ^ k := Nat.pow_pos (by omega)
    omega
  | succ fuel ih =>
    intro n hn
    by_cases h0 : n = 0
    · subst h0
      refine ⟨fun h => by simp [isPow2Go] at h, ?_⟩
      rintro ⟨k, hk⟩
      have : 0 < 2 ^ k := Nat.pow_pos (by omega)
      omega
    · by_cases h1 : n = 1
      · subst h1
        refine ⟨fun _ => ⟨0, rfl⟩, fun _ => by simp [isPow2Go]⟩
      · have hge : 2 ≤ n := by omega
        simp only [isPow2Go, if_neg h0, if_neg h1, Bool.and_eq_true, beq_iff_eq]
        rw [ih (n / 2) (by omega)]
        constructor
        · rintro ⟨hmod, k, hk⟩
          exact ⟨k + 1, by rw [pow_succ]; omega⟩
        · rintro ⟨k, hk⟩
          match k with
          | 0 => omega
          | k + 1 =>
            rw [pow_succ] at hk
            exact ⟨by omega, k, by omega⟩

theorem isPow2_iff (n : Nat) : isPow2 n = true ↔ ∃ k, n = 2 ^ k :=
  isPow2Go_iff n n (le_refl n)

theorem nextPow2_of_isPow2 {n : Nat} (h : isPow2 n = true) : nextPow2 n = n := by
  obtain ⟨k, hk⟩ := (isPow2_iff n).1 h
  rw [hk, nextPow2_two_pow]

/-- The growable buffer of `bufpool/src/buf.rs`:
`pub struct Buf { data: *mut u8, len: usize, cap: usize, pool: BufPool }`.
`addr` is the raw block address `data`; the bytes stored at that block are
carried in the handle as the list `data` (the block has exactly `cap` bytes,
an invariant the pool maintains and the theorems carry as `Buf.Inv`).  The
`pool` back-reference is left to the pool-state operations. -/
structure Buf where
  addr : Nat
  data : List Nat
  len : Nat
  cap : Nat
deriving DecidableEq, Repr

/-- The whole backing block, `Buf::_as_full_slice`
(`slice::from_raw_parts_mut(self.data, self.cap)`). -/
def Buf.fullSlice (b : Buf) : List Nat := b.data

/-- `Buf::as_slice` (`slice::from_raw_parts(self.data, self.len)`): the
logical, length-bounded contents. -/
def Buf.asSlice (b : Buf) : List Nat := b.data.take b.len

/-- The memory-safety invariant of a pool-issued `Buf`: the logical length
never exceeds the capacity, and the backing block really has `cap` bytes. -/
def Buf.Inv (b : Buf) : Prop := b.len ≤ b.cap ∧ b.data.length = b.cap

/-- `Buf::extend_from_slice` (`bufpool/src/buf.rs` lines 69-74): bounds-checks
`self._as_full_slice()[idx..idx + other.len()]` against the capacity (a panic,
raised before anything is written or `len` is touched, is the `.error` case,
whose payload is the buffer exactly as the panic leaves it), then copies
`other` in at position `len` and advances `len`. -/
def Buf.extendFromSlice (b : Buf) (other : List Nat) : Except Buf Buf :=
  if b.len + other.length ≤ b.cap then
    .ok { b with
            data := b.data.take b.len ++ other ++ b.data.drop (b.len + other.length),
            len := b.len + other.length }
  else
    .error b

/-- `Buf::extend_from_within` (`bufpool/src/buf.rs` lines 76-80): copies the
range `[s, e)` of the full slice to position `len` via `copy_within`, which
bounds-checks both the source range and the destination against the capacity
before writing.  Note the source never updates `len`. -/
def Buf.extendFromWithin (b : Buf) (s e : Nat) : Except Buf Buf :=
  if s ≤ e ∧ e ≤ b.cap ∧ b.len + (e - s) ≤ b.cap then
    .ok { b with
            data := b.data.take b.len ++ ((b.data.drop s).take (e - s))
                      ++ b.data.drop (b.len + (e - s)) }
  else
    .error b

/-- `Buf::push` (`self.extend_from_slice(&[v])`). -/
def Buf.push (b : Buf) (v : Nat) : Except Buf Buf :=
  b.extendFromSlice [v]

/-- `Buf::pop`: returns the last logical byte and the updated buffer. -/
def Buf.pop (b : Buf) : Option Nat × Buf :=
  if b.len = 0 then (none, b)
  else (some (b.data.getD (b.len - 1) 0), { b with len := b.len - 1 })

/-- `Buf::clear` (`self.len = 0`). -/
def Buf.clear (b : Buf) : Buf := { b with len := 0 }

/-- `Buf::truncate` (`bufpool/src/buf.rs` lines 101-106): no-op unless
`len < self.len`, in which case the length becomes `len`. -/
def Buf.truncate (b : Buf) (len : Nat) : Buf :=
  if len ≥ b.len then b else { b with len := len }

/-- `Buf::set_len` (`assert!(len <= self.cap); self.len = len;`); the failed
assert is `none`. -/
def Buf.setLen (b : Buf) (len : Nat) : Option Buf :=
  if len ≤ b.cap then some { b with len := len } else none

/-- `Buf::append`: `self.extend_from_slice(other.as_slice()); other.clear();`.
If the extend panics, `other` has not been cleared yet. -/
def Buf.append (b other : Buf) : Except (Buf × Buf) (Buf × Buf) :=
  match b.extendFromSlice other.asSlice with
  | .ok b' => .ok (b', other.clear)
  | .error b' => .error (b', other)

/-- `Buf::fill` (via `DerefMut`, `slice::fill` over `as_mut_slice`, which is
`len` bytes long): overwrites the logical contents with `v`. -/
def Buf.fill (b : Buf) (v : Nat) : Buf :=
  { b with data := List.replicate b.len v ++ b.data.drop b.len }

/-- Equality of growable buffers, `impl PartialEq for Buf`
(`bufpool/src/buf.rs` lines 225-229):
`self.len == other.len && (ptr::eq(self.data, other.data) || self.as_slice() == other.as_slice())`. -/
def Buf.beq (a b : Buf) : Bool :=
  a.len == b.len && (a.addr == b.addr || a.asSlice == b.asSlice)

/-- The state of a `BufPool` (`bufpool/src/lib.rs`): the fixed alignment, one
FIFO queue per size-class exponent holding released blocks (address plus the
bytes sitting in them), and the system allocator modelled as a bump allocator:
`fresh` is the address it hands out next, `junk` the uninitialised bytes found
in a freshly allocated block. -/
structure PoolState where
  align : Nat
  free : Nat → List (Nat × List Nat)
  fresh : Nat
  junk : Nat → Nat → Nat

/-- Replace one size class's queue, leaving every other slot untouched. -/
def setSlot (f : Nat → List (Nat × List Nat)) (i : Nat) (q : List (Nat × List Nat)) :
    Nat → List (Nat × List Nat) :=
  fun j => if j = i then q else f j

/-- `BufPool::allocate` (`bufpool/src/lib.rs` lines 58-80): rounds the request
up with `next_power_of_two` (a rounded capacity that no longer fits in a
`usize` is the overflow abort, `none`), pops the front of the matching size
class's queue or takes a fresh block from the system allocator, asserts the
pointer is not null, and wraps it with `len = 0` and the rounded `cap`. -/
def allocate (p : PoolState) (n : Nat) : Option (Buf × PoolState) :=
  let cap := nextPow2 n
  if cap < USIZE then
    match p.free (ilog2 cap) with
    | (a, d) :: rest =>
      if a ≠ 0 then
        some (⟨a, d, 0, cap⟩, { p with free := setSlot p.free (ilog2 cap) rest })
      else none
    | [] =>
      if p.fresh ≠ 0 then
        some (⟨p.fresh, (List.range cap).map (p.junk p.fresh), 0, cap⟩,
              { p with fresh := p.fresh + cap })
      else none
  else none

/-- `impl Drop for Buf` (`bufpool/src/buf.rs` lines 164-177, pooled mode):
pushes the block onto the back of the queue for slot `capacity().ilog2()`. -/
def bufDrop (b : Buf) (p : PoolState) : PoolState :=
  { p with
      free := setSlot p.free (ilog2 b.cap)
                (p.free (ilog2 b.cap) ++ [(b.addr, b.data)]) }

/-- `BufPool::allocate_uninitialised` (`bufpool/src/lib.rs` lines 95-99):
`let mut buf = self.allocate(len); unsafe { buf.set_len(len) }; buf`. -/
def allocateUninitialised (p : PoolState) (n : Nat) : Option (Buf × PoolState) :=
  (allocate p n).bind fun r => (r.1.setLen n).map fun b => (b, r.2)

/-- `BufPool::allocate_with_fill` (`allocate_uninitialised` then `fill`). -/
def allocateWithFill (p : PoolState) (v n : Nat) : Option (Buf × PoolState) :=
  (allocateUninitialised p n).map fun r => (r.1.fill v, r.2)

/-- `BufPool::allocate_with_zeros` (`bufpool/src/lib.rs` lines 107-109):
`self.allocate_with_fill(0, len)`. -/
def allocateWithZeros (p : PoolState) (n : Nat) : Option (Buf × PoolState) :=
  allocateWithFill p 0 n

/-- Well-formedness of a growable pool state: the system allocator never
hands out the null address and every block parked in slot `i` is a non-null
block of exactly `2 ^ i` bytes. -/
def PoolState.WF (p : PoolState) : Prop :=
  p.fresh ≠ 0 ∧ ∀ i, ∀ blk ∈ p.free i, blk.1 ≠ 0 ∧ blk.2.length = 2 ^ i

namespace V0

/-- The growable buffer of the earlier variant at `src/src/buf.rs`
(`pub struct Buf { data: *mut u8, len: usize, cap: usize, pool: BufPoolForSize }`),
embedded like `Bufpool.Buf`. -/
structure Buf where
  addr : Nat
  data : List Nat
  len : Nat
  cap : Nat
deriving DecidableEq, Repr

/-- `Buf::as_slice` of the `src/` variant. -/
def Buf.asSlice (b : Buf) : List Nat := b.data.take b.len

/-- `Buf::truncate` of `src/src/buf.rs` lines 94-99, embedded exactly as
written: `if len >= self.len { return; }; self.len = self.len;` — note the
assignment writes `self.len` back to itself. -/
def Buf.truncate (b : Buf) (len : Nat) : Buf :=
  if len ≥ b.len then b else { b with len := b.len }

/-- `Buf::extend_from_within` of `src/src/buf.rs` lines 69-73: identical to
the `bufpool` variant (`copy_within(src, idx)` with `idx = self.len`, which
never updates `len`). -/
def Buf.extendFromWithin (b : Buf) (s e : Nat) : Except Buf Buf :=
  if s ≤ e ∧ e ≤ b.cap ∧ b.len + (e - s) ≤ b.cap then
    .ok { b with
            data := b.data.take b.len ++ ((b.data.drop s).take (e - s))
                      ++ b.data.drop (b.len + (e - s)) }
  else
    .error b

end V0

namespace Fixed

/-- A `FixedBuf` (`bufpool-fixed/src/buf.rs`): nothing but the packed word
`ptr_and_cap` (block address in the high bits, capacity exponent in the low
bits); its bytes live in the pool state's memory. -/
structure FixedBuf where
  ptr_and_cap : Nat
deriving DecidableEq, Repr

/-- The 64-bit `usize` bitwise NOT, used by `FixedBuf::ptr` as `!(align - 1)`. -/
def usizeNot (x : Nat) : Nat := (USIZE - 1) - x

/-- `FixedBuf::ptr` (`bufpool-fixed/src/buf.rs` lines 26-29):
`self.ptr_and_cap & !(align - 1)`. -/
def FixedBuf.ptr (align : Nat) (b : FixedBuf) : Nat :=
  b.ptr_and_cap &&& usizeNot (align - 1)

/-- The capacity exponent recovered from the packed word
(`self.ptr_and_cap & (align - 1)` inside `FixedBuf::capacity`). -/
def FixedBuf.exp (align : Nat) (b : FixedBuf) : Nat :=
  b.ptr_and_cap &&& (align - 1)

/-- `FixedBuf::capacity` (`bufpool-fixed/src/buf.rs` lines 43-46): `1 << l2`. -/
def FixedBuf.capacity (align : Nat) (b : FixedBuf) : Nat :=
  1 <<< b.exp align

/-- The state of a `FixedBufPool` (`bufpool-fixed/src/lib.rs`): the alignment
fixed at construction, one FIFO queue of packed words per size-class exponent,
the byte memory the buffers alias, and the system allocator modelled as a
bump allocator over aligned addresses (`fresh` is the next address it returns). -/
structure PoolState where
  align : Nat
  free : Nat → List Nat
  mem : Nat → Nat
  fresh : Nat

/-- Replace one size class's queue of packed words. -/
def setSlotF (f : Nat → List Nat) (i : Nat) (q : List Nat) : Nat → List Nat :=
  fun j => if j = i then q else f j

/-- `alloc_zeroed`: the `cap` bytes starting at `a` become zero. -/
def zeroRange (m : Nat → Nat) (a cap : Nat) : Nat → Nat :=
  fun x => if a ≤ x ∧ x < a + cap then 0 else m x

/-- `FixedBufPool::allocate_with_zeros` (`bufpool-fixed/src/lib.rs` lines
53-74): asserts `cap.is_power_of_two()` (failure is the abort, `none`), rounds
with `next_power_of_two`, pops the front of slot `cap.ilog2()` — reusing the
popped packed word as is, without touching memory — or, on a miss, takes a
fresh `alloc_zeroed` block, asserts it non-null and aligned, and packs
`raw | cap.ilog2()`. -/
def allocateWithZeros (s : PoolState) (cap : Nat) : Option (FixedBuf × PoolState) :=
  if isPow2 cap then
    let cap2 := nextPow2 cap
    match s.free (ilog2 cap2) with
    | pc :: rest =>
      some (⟨pc⟩, { s with free := setSlotF s.free (ilog2 cap2) rest })
    | [] =>
      if s.fresh ≠ 0 ∧ s.fresh % s.align = 0 then
        some (⟨s.fresh ||| ilog2 cap2⟩,
              { s with
                  mem := zeroRange s.mem s.fresh cap2,
                  fresh := s.fresh + s.align * ((cap2 + s.align - 1) / s.align) })
      else none
  else none

/-- `FixedBuf::as_slice` (`slice::from_raw_parts(self.ptr(), self.capacity())`):
the `capacity` bytes of pool memory starting at the unpacked address. -/
def FixedBuf.asSlice (s : PoolState) (b : FixedBuf) : List Nat :=
  (List.range (b.capacity s.align)).map fun i => s.mem (b.ptr s.align + i)

/-- A single byte store through `FixedBuf::as_mut_slice`. -/
def FixedBuf.writeByte (s : PoolState) (b : FixedBuf) (i v : Nat) : PoolState :=
  { s with mem := fun x => if x = b.ptr s.align + i then v else s.mem x }

/-- `impl Drop for FixedBuf` (`bufpool-fixed/src/buf.rs` lines 102-109):
pushes the packed word onto the back of slot `capacity().ilog2()`. -/
def FixedBuf.drop (s : PoolState) (b : FixedBuf) : PoolState :=
  { s with
      free := setSlotF s.free (ilog2 (b.capacity s.align))
                (s.free (ilog2 (b.capacity s.align)) ++ [b.ptr_and_cap]) }

/-- Equality of fixed buffers, `impl PartialEq for FixedBuf`
(`bufpool-fixed/src/buf.rs` lines 141-145):
`self.ptr_and_cap == other.ptr_and_cap || self.as_slice() == other.as_slice()`,
with both slices read in the shared pool state `s`. -/
def FixedBuf.beq (s : PoolState) (a b : FixedBuf) : Bool :=
  a.ptr_and_cap == b.ptr_and_cap || a.asSlice s == b.asSlice s

/-- `FixedBufPool::with_alignment` (`bufpool-fixed/src/lib.rs` lines 30-40):
`assert!(align > 64); assert!(align.is_power_of_two());` then builds the pool;
a failed assert is the abort, `none`. -/
def withAlignment (align : Nat) : Option PoolState :=
  if 64 < align then
    if isPow2 align then
      some { align := align, free := fun _ => [], mem := fun _ => 0, fresh := align }
    else none
  else none

end Fixed

/-- Taking the logical prefix of a block after something was written at
positions `≥ len` gives back the original logical prefix. -/
theorem take_len_write_after {α : Type} (d : List α) (len : Nat) (rest : List α)
    (h : len ≤ d.length) :
    (d.take len ++ rest).take len = d.take len := by
  rw [List.take_append_of_le_length, List.take_take]
  · simp
  · rw [List.length_take]
    omega

/-- Bits below the alignment exponent of an aligned address are zero. -/
theorem testBit_of_mod_two_pow_eq_zero {x a i : Nat} (h : x % 2 ^ a = 0) (hi : i < a) :
    x.testBit i = false := by
  have h2 := Nat.testBit_mod_two_pow x a i
  rw [h, Nat.zero_testBit] at h2
  cases hx : x.testBit i
  · rfl
  · rw [hx] at h2
    simp [hi] at h2

/-- The bit pattern of the 64-bit mask `!(align - 1)` for `align = 2 ^ a`:
ones exactly at positions `a, ..., 63`. -/
theorem usizeNot_two_pow_sub_one_testBit {a : Nat} (ha : a ≤ 64) (i : Nat) :
    (Fixed.usizeNot (2 ^ a - 1)).testBit i = (decide (a ≤ i) && decide (i < 64)) := by
  have h1 : Fixed.usizeNot (2 ^ a - 1) = (2 ^ (64 - a) - 1) <<< a := by
    rw [Nat.shiftLeft_eq]
    have hpow : 2 ^ (64 - a) * 2 ^ a = 2 ^ 64 := by
      rw [← pow_add]
      congr 1
      omega
    have h2 : 1 ≤ 2 ^ a := Nat.one_le_two_pow
    have h3 : 1 ≤ 2 ^ (64 - a) := Nat.one_le_two_pow
    have h4 : 2 ^ a ≤ 2 ^ 64 := Nat.pow_le_pow_right (by omega) ha
    unfold Fixed.usizeNot USIZE
    rw [Nat.sub_mul, hpow, one_mul]
    omega
  rw [h1, Nat.testBit_shiftLeft, Nat.testBit_two_pow_sub_one]
  rcases Nat.lt_or_ge i a with h | h
  · simp [Nat.not_le.2 h, h]
  · have hiff : (i - a < 64 - a) ↔ (i < 64) := by omega
    simp [h, hiff, ge_iff_le]

/-- Unpacking the address: `(addr | e) & !(align - 1) = addr` whenever `addr`
is `align`-aligned, fits in a `usize`, and `e < align`. -/
theorem pack_unpack_ptr {align a addr e : Nat} (ha : align = 2 ^ a)
    (hsz : align ≤ 2 ^ 64)
    (haddr : addr < 2 ^ 64) (hal : addr % align = 0) (he : e < align) :
    (addr ||| e) &&& Fixed.usizeNot (align - 1) = addr := by
  subst ha
  have ha64 : a ≤ 64 := by
    by_contra hc
    have h1 : 2 ^ 64 < 2 ^ a := Nat.pow_lt_pow_right (by omega) (by omega)
    omega
  apply Nat.eq_of_testBit_eq
  intro i
  rw [Nat.testBit_land, Nat.testBit_lor, usizeNot_two_pow_sub_one_testBit ha64]
  rcases Nat.lt_or_ge i a with h | h
  · rw [testBit_of_mod_two_pow_eq_zero hal h]
    simp [Nat.not_le.2 h]
  · have he' : e.testBit i = false :=
      Nat.testBit_lt_two_pow (lt_of_lt_of_le he (Nat.pow_le_pow_right (by omega) h))
    rw [he']
    rcases Nat.lt_or_ge i 64 with h64 | h64
    · simp [h, h64]
    · have ha' : addr.testBit i = false :=
        Nat.testBit_lt_two_pow (lt_of_lt_of_le haddr (Nat.pow_le_pow_right (by omega) h64))
      rw [ha']
      simp [Nat.not_lt.2 h64]

/-- Unpacking the exponent: `(addr | e) & (align - 1) = e` whenever `addr` is
`align`-aligned and `e < align`. -/
theorem pack_unpack_exp {align a addr e : Nat} (ha : align = 2 ^ a)
    (hal : addr % align = 0) (he : e < align) :
    (addr ||| e) &&& (align - 1) = e := by
  subst ha
  apply Nat.eq_of_testBit_eq
  intro i
  rw [Nat.testBit_land, Nat.testBit_lor, Nat.testBit_two_pow_sub_one]
  rcases Nat.lt_or_ge i a with h | h
  · rw [testBit_of_mod_two_pow_eq_zero hal h]
    simp [h]
  · have he' : e.testBit i = false :=
      Nat.testBit_lt_two_pow (lt_of_lt_of_le he (Nat.pow_le_pow_right (by omega) h))
    rw [he']
    simp [Nat.not_lt.2 h]

/-- The capacity decoded from a freshly packed word is `2 ^ e`. -/
theorem capacity_pack {align a addr e : Nat} (ha : align = 2 ^ a)
    (hal : addr % align = 0) (he : e < align) :
    Fixed.FixedBuf.capacity align ⟨addr ||| e⟩ = 2 ^ e := by
  unfold Fixed.FixedBuf.capacity Fixed.FixedBuf.exp
  rw [pack_unpack_exp ha hal he, Nat.shiftLeft_eq, one_mul]

/-- C4 -/
theorem c4_pack_unpack (align addr e : Nat)
    (hpow : isPow2 align = true) (hgt : 64 < align) (hsz : align ≤ 2 ^ 64)
    (haddr : addr < 2 ^ 64) (hal : addr % align = 0) (he : e < 64) :
    Fixed.FixedBuf.ptr align ⟨addr ||| e⟩ = addr ∧
    Fixed.FixedBuf.exp align ⟨addr ||| e⟩ = e := by
  obtain ⟨a, ha⟩ := (isPow2_iff align).1 hpow
  have he' : e < align := by omega
  exact ⟨pack_unpack_ptr ha hsz haddr hal he', pack_unpack_exp ha hal he'⟩

/-- C4 witness -/
theorem c4_pack_unpack_witness :
    (isPow2 128 = true ∧ 64 < 128 ∧ (128 : Nat) ≤ 2 ^ 64 ∧ 256 < 2 ^ 64 ∧ 256 % 128 = 0 ∧ 5 < 64) ∧
    (Fixed.FixedBuf.ptr 128 ⟨256 ||| 5⟩ = 256 ∧ Fixed.FixedBuf.exp 128 ⟨256 ||| 5⟩ = 5) :=
  ⟨⟨by decide, by decide, by decide, by decide, by decide, by decide⟩,
    c4_pack_unpack 128 256 5 (by decide) (by decide) (by decide) (by decide) (by decide) (by decide)⟩

/-- Well-formedness of a fixed pool state: the alignment was accepted by
`with_alignment` and fits a `usize`; the system allocator's next address is
non-null, aligned and in range; and every packed word parked in slot `e`
decodes to capacity `2 ^ e`. -/
def Fixed.PoolState.WF (s : Fixed.PoolState) : Prop :=
  64 < s.align ∧ isPow2 s.align = true ∧ s.align ≤ 2 ^ 64 ∧
  s.fresh ≠ 0 ∧ s.fresh % s.align = 0 ∧ s.fresh < 2 ^ 64 ∧
  ∀ e, ∀ pc ∈ s.free e, Fixed.FixedBuf.capacity s.align ⟨pc⟩ = 2 ^ e

/-- `BufPool::allocate` always succeeds on a well-formed pool for in-range
requests, with the rounded capacity and length zero. -/
theorem allocate_spec (p : PoolState) (n : Nat) (hWF : p.WF) (hn : n ≤ 2 ^ 63) :
    ∃ b p', allocate p n = some (b, p') ∧ b.cap = nextPow2 n ∧ b.len = 0 := by
  obtain ⟨hfresh, hblk⟩ := hWF
  have hcap : nextPow2 n < USIZE := by
    have h1 := nextPow2_min n 63 hn
    have h2 : (2 : Nat) ^ 63 < 2 ^ 64 := by norm_num
    unfold USIZE
    omega
  cases hq : p.free (ilog2 (nextPow2 n)) with
  | cons blk rest =>
    obtain ⟨a, d⟩ := blk
    have hA : a ≠ 0 := (hblk _ _ (by rw [hq]; exact List.mem_cons_self _ _)).1
    refine ⟨⟨a, d, 0, nextPow2 n⟩,
      { p with free := setSlot p.free (ilog2 (nextPow2 n)) rest }, ?_, rfl, rfl⟩
    simp [allocate, hcap, hq, hA]
  | nil =>
    refine ⟨⟨p.fresh, (List.range (nextPow2 n)).map (p.junk p.fresh), 0, nextPow2 n⟩,
      { p with fresh := p.fresh + nextPow2 n }, ?_, rfl, rfl⟩
    simp [allocate, hcap, hq, hfresh]

/-- `FixedBufPool::allocate_with_zeros` on a well-formed pool: it succeeds
exactly when the request is a power of two, and then the returned packed word
decodes to that capacity. -/
theorem fixed_allocate_spec (s : Fixed.PoolState) (cap : Nat)
    (hWF : s.WF) (hcap63 : cap ≤ 2 ^ 63) :
    ((∃ r, Fixed.allocateWithZeros s cap = some r) ↔ isPow2 cap = true) ∧
    (∀ b s', Fixed.allocateWithZeros s cap = some (b, s') →
       b.capacity s.align = cap) := by
  obtain ⟨hgt, hpow, hsz, hfresh, halign, hflt, hcapinv⟩ := hWF
  by_cases hp : isPow2 cap = true
  · obtain ⟨k, hk⟩ := (isPow2_iff cap).1 hp
    have hnp : nextPow2 cap = cap := nextPow2_of_isPow2 hp
    have hilog : ilog2 (nextPow2 cap) = k := by rw [hnp, hk, ilog2_two_pow]
    have hk63 : k ≤ 63 := by
      by_contra hc
      have : (2 : Nat) ^ 64 ≤ 2 ^ k := Nat.pow_le_pow_right (by omega) (by omega)
      have h2 : (2 : Nat) ^ 63 < 2 ^ 64 := by norm_num
      omega
    cases hq : s.free (ilog2 (nextPow2 cap)) with
    | cons pc rest =>
      constructor
      · exact ⟨fun _ => hp, fun _ =>
          ⟨(⟨pc⟩, { s with free := Fixed.setSlotF s.free (ilog2 (nextPow2 cap)) rest }),
            by simp [Fixed.allocateWithZeros, hp, hq]⟩⟩
      · intro b s' hsome
        simp [Fixed.allocateWithZeros, hp, hq] at hsome
        have hmem := hcapinv _ pc (by rw [hq]; exact List.mem_cons_self _ _)
        rw [← hsome.1, hmem, hilog, hk]
    | nil =>
      constructor
      · refine ⟨fun _ => hp, fun _ => ?_⟩
        refine ⟨(⟨s.fresh ||| ilog2 (nextPow2 cap)⟩,
          { s with
              mem := Fixed.zeroRange s.mem s.fresh (nextPow2 cap),
              fresh := s.fresh + s.align * ((nextPow2 cap + s.align - 1) / s.align) }), ?_⟩
        simp [Fixed.allocateWithZeros, hp, hq, hfresh, halign]
      · intro b s' hsome
        simp [Fixed.allocateWithZeros, hp, hq, hfresh, halign] at hsome
        obtain ⟨a, ha⟩ := (isPow2_iff s.align).1 hpow
        have he : ilog2 (nextPow2 cap) < s.align := by rw [hilog]; omega
        rw [← hsome.1, capacity_pack ha halign he, hilog, hk]
  · have hnone : Fixed.allocateWithZeros s cap = none := by
      simp [Fixed.allocateWithZeros, hp]
    constructor
    · constructor
      · rintro ⟨r, hr⟩
        rw [hnone] at hr
        cases hr
      · intro h
        exact absurd h hp
    · intro b s' hsome
      rw [hnone] at hsome
      cases hsome

/-- C2 counterexample -/
theorem c2_counterexample :
    ((Fixed.withAlignment 128).bind fun s => Fixed.allocateWithZeros s 0) = none ∧
    ((Fixed.withAlignment 128).bind fun s => Fixed.allocateWithZeros s 3) = none := by
  constructor <;> rfl

/-- C2 (amended) -/
theorem c2_amended_allocate :
    (∀ (p : PoolState) (n : Nat), p.WF → n ≤ 2 ^ 63 →
       ∃ b p', allocate p n = some (b, p') ∧
         b.cap = max 1 (nextPow2 n) ∧ b.len = 0) ∧
    (∀ (s : Fixed.PoolState) (cap : Nat), s.WF → cap ≤ 2 ^ 63 →
       ((∃ r, Fixed.allocateWithZeros s cap = some r) ↔ isPow2 cap = true) ∧
       (∀ b s', Fixed.allocateWithZeros s cap = some (b, s') →
          b.capacity s.align = cap)) := by
  constructor
  · intro p n hWF hn
    obtain ⟨b, p', h1, h2, h3⟩ := allocate_spec p n hWF hn
    exact ⟨b, p', h1, by rw [h2, Nat.max_eq_right (nextPow2_pos n)], h3⟩
  · exact fixed_allocate_spec

/-- C2 witness -/
theorem c2_amended_allocate_witness :
    ((⟨8, fun _ => [], 1000, fun _ _ => 0⟩ : PoolState).WF ∧ 5 ≤ 2 ^ 63) ∧
    (∃ b p', allocate ⟨8, fun _ => [], 1000, fun _ _ => 0⟩ 5 = some (b, p') ∧
       b.cap = max 1 (nextPow2 5) ∧ b.len = 0) :=
  ⟨⟨by unfold PoolState.WF; exact ⟨by decide, fun i blk h => by cases h⟩, by norm_num⟩,
    c2_amended_allocate.1 ⟨8, fun _ => [], 1000, fun _ _ => 0⟩ 5
      (by unfold PoolState.WF; exact ⟨by decide, fun i blk h => by cases h⟩) (by norm_num)⟩

/-- A successful `extend_from_slice` preserves the buffer invariant. -/
theorem extendFromSlice_ok_inv {b : Buf} {other : List Nat} {b' : Buf}
    (hInv : b.Inv) (h : b.extendFromSlice other = .ok b') : b'.Inv := by
  obtain ⟨hlen, hdata⟩ := hInv
  unfold Buf.extendFromSlice at h
  split at h
  · rename_i hguard
    cases h
    constructor
    · exact hguard
    · show (b.data.take b.len ++ other ++ b.data.drop (b.len + other.length)).length = b.cap
      rw [List.length_append, List.length_append, List.length_take, List.length_drop]
      omega
  · cases h

/-- A failed `extend_from_slice` leaves the buffer untouched, and fails
exactly because the write would exceed the capacity. -/
theorem extendFromSlice_error {b : Buf} {other : List Nat} {b' : Buf}
    (h : b.extendFromSlice other = .error b') : b' = b ∧ b.cap < b.len + other.length := by
  unfold Buf.extendFromSlice at h
  split at h
  · cases h
  · rename_i hguard
    cases h
    exact ⟨rfl, by omega⟩

/-- A successful `extend_from_within` preserves the buffer invariant. -/
theorem extendFromWithin_ok_inv {b : Buf} {s e : Nat} {b' : Buf}
    (hInv : b.Inv) (h : b.extendFromWithin s e = .ok b') : b'.Inv := by
  obtain ⟨hlen, hdata⟩ := hInv
  unfold Buf.extendFromWithin at h
  split at h
  · rename_i hguard
    obtain ⟨h1, h2, h3⟩ := hguard
    cases h
    constructor
    · exact hlen
    · show (b.data.take b.len ++ (b.data.drop s).take (e - s)
             ++ b.data.drop (b.len + (e - s))).length = b.cap
      rw [List.length_append, List.length_append, List.length_take, List.length_take,
        List.length_drop, List.length_drop]
      omega
  · cases h

/-- C7 -/
theorem c7_capacity_invariant (b : Buf) (hInv : b.Inv) :
    (∀ v b', b.push v = .ok b' → b'.Inv) ∧
    (∀ other b', b.extendFromSlice other = .ok b' → b'.Inv) ∧
    (∀ other b', b.extendFromSlice other = .error b' →
       b' = b ∧ b.cap < b.len + other.length) ∧
    (∀ s e b', b.extendFromWithin s e = .ok b' → b'.Inv) ∧
    (∀ s e b', b.extendFromWithin s e = .error b' → b' = b) ∧
    b.pop.2.Inv ∧
    (∀ l, (b.truncate l).Inv) ∧
    b.clear.Inv ∧
    (∀ l b', b.setLen l = some b' → b'.Inv) ∧
    (∀ o b' o', o.Inv → b.append o = .ok (b', o') → b'.Inv ∧ o'.Inv) ∧
    (∀ o b' o', b.append o = .error (b', o') → b' = b ∧ o' = o) := by
  obtain ⟨hlen, hdata⟩ := hInv
  refine ⟨?_, ?_, ?_, ?_, ?_, ?_, ?_, ?_, ?_, ?_, ?_⟩
  · intro v b' h
    exact extendFromSlice_ok_inv ⟨hlen, hdata⟩ h
  · intro other b' h
    exact extendFromSlice_ok_inv ⟨hlen, hdata⟩ h
  · intro other b' h
    exact extendFromSlice_error h
  · intro s e b' h
    exact extendFromWithin_ok_inv ⟨hlen, hdata⟩ h
  · intro s e b' h
    unfold Buf.extendFromWithin at h
    split at h
    · cases h
    · cases h
      rfl
  · unfold Buf.pop
    split
    · exact ⟨hlen, hdata⟩
    · exact ⟨by show b.len - 1 ≤ b.cap; omega, hdata⟩
  · intro l
    unfold Buf.truncate
    split
    · exact ⟨hlen, hdata⟩
    · exact ⟨by show l ≤ b.cap; omega, hdata⟩
  · exact ⟨Nat.zero_le _, hdata⟩
  · intro l b' h
    unfold Buf.setLen at h
    split at h
    · rename_i hguard
      cases h
      exact ⟨hguard, hdata⟩
    · cases h
  · intro o b' o' hoInv happ
    unfold Buf.append at happ
    cases hres : b.extendFromSlice o.asSlice with
    | ok bb =>
      rw [hres] at happ
      cases happ
      exact ⟨extendFromSlice_ok_inv ⟨hlen, hdata⟩ hres, Nat.zero_le _, hoInv.2⟩
    | error bb =>
      rw [hres] at happ
      cases happ
  · intro o b' o' happ
    unfold Buf.append at happ
    cases hres : b.extendFromSlice o.asSlice with
    | ok bb =>
      rw [hres] at happ
      cases happ
    | error bb =>
      rw [hres] at happ
      cases happ
      exact ⟨(extendFromSlice_error hres).1, rfl⟩

/-- C7 witness -/
theorem c7_capacity_invariant_witness :
    (⟨8, [5, 7], 1, 2⟩ : Buf).Inv ∧
    ((∀ v b', (⟨8, [5, 7], 1, 2⟩ : Buf).push v = .ok b' → b'.Inv) ∧
     (∀ other b', (⟨8, [5, 7], 1, 2⟩ : Buf).extendFromSlice other = .ok b' → b'.Inv) ∧
     (∀ other b', (⟨8, [5, 7], 1, 2⟩ : Buf).extendFromSlice other = .error b' →
        b' = ⟨8, [5, 7], 1, 2⟩ ∧
        (⟨8, [5, 7], 1, 2⟩ : Buf).cap < (⟨8, [5, 7], 1, 2⟩ : Buf).len + other.length) ∧
     (∀ s e b', (⟨8, [5, 7], 1, 2⟩ : Buf).extendFromWithin s e = .ok b' → b'.Inv) ∧
     (∀ s e b', (⟨8, [5, 7], 1, 2⟩ : Buf).extendFromWithin s e = .error b' →
        b' = ⟨8, [5, 7], 1, 2⟩) ∧
     (⟨8, [5, 7], 1, 2⟩ : Buf).pop.2.Inv ∧
     (∀ l, ((⟨8, [5, 7], 1, 2⟩ : Buf).truncate l).Inv) ∧
     (⟨8, [5, 7], 1, 2⟩ : Buf).clear.Inv ∧
     (∀ l b', (⟨8, [5, 7], 1, 2⟩ : Buf).setLen l = some b' → b'.Inv) ∧
     (∀ o b' o', o.Inv → (⟨8, [5, 7], 1, 2⟩ : Buf).append o = .ok (b', o') →
        b'.Inv ∧ o'.Inv) ∧
     (∀ o b' o', (⟨8, [5, 7], 1, 2⟩ : Buf).append o = .error (b', o') →
        b' = ⟨8, [5, 7], 1, 2⟩ ∧ o' = o)) :=
  ⟨⟨by decide, by decide⟩, c7_capacity_invariant ⟨8, [5, 7], 1, 2⟩ ⟨by decide, by decide⟩⟩

/-- C8 -/
theorem c8_equality (a b : Buf)
    (ha : a.Inv) (hb : b.Inv)
    (hnoalias : a.addr = b.addr → a.data = b.data) :
    (Buf.beq a b = true ↔ a.asSlice = b.asSlice) ∧
    (∀ (s : Fixed.PoolState) (x y : Fixed.FixedBuf),
       Fixed.FixedBuf.beq s x y = true ↔ x.asSlice s = y.asSlice s) := by
  constructor
  · unfold Buf.beq
    simp only [Bool.and_eq_true, Bool.or_eq_true, beq_iff_eq]
    constructor
    · rintro ⟨hlen, haddr | hslice⟩
      · unfold Buf.asSlice
        rw [hnoalias haddr, hlen]
      · exact hslice
    · intro hslice
      have hlen : a.len = b.len := by
        have h1 : a.asSlice.length = b.asSlice.length := by rw [hslice]
        unfold Buf.asSlice at h1
        rw [List.length_take, List.length_take] at h1
        obtain ⟨hal, had⟩ := ha
        obtain ⟨hbl, hbd⟩ := hb
        omega
      exact ⟨hlen, Or.inr hslice⟩
  · intro s x y
    unfold Fixed.FixedBuf.beq
    simp only [Bool.or_eq_true, beq_iff_eq]
    constructor
    · rintro (hpacked | hslice)
      · have hxy : x = y := by
          cases x
          cases y
          simpa using hpacked
        rw [hxy]
      · exact hslice
    · intro h
      exact Or.inr h

/-- C8 witness -/
theorem c8_equality_witness :
    ((⟨8, [1, 2], 1, 2⟩ : Buf).Inv ∧ (⟨16, [1, 9], 1, 2⟩ : Buf).Inv ∧
      ((⟨8, [1, 2], 1, 2⟩ : Buf).addr = (⟨16, [1, 9], 1, 2⟩ : Buf).addr →
        (⟨8, [1, 2], 1, 2⟩ : Buf).data = (⟨16, [1, 9], 1, 2⟩ : Buf).data)) ∧
    ((Buf.beq ⟨8, [1, 2], 1, 2⟩ ⟨16, [1, 9], 1, 2⟩ = true ↔
       (⟨8, [1, 2], 1, 2⟩ : Buf).asSlice = (⟨16, [1, 9], 1, 2⟩ : Buf).asSlice) ∧
     (∀ (s : Fixed.PoolState) (x y : Fixed.FixedBuf),
        Fixed.FixedBuf.beq s x y = true ↔ x.asSlice s = y.asSlice s)) :=
  ⟨⟨⟨by decide, by decide⟩, ⟨by decide, by decide⟩, fun h => absurd h (by decide)⟩,
    c8_equality ⟨8, [1, 2], 1, 2⟩ ⟨16, [1, 9], 1, 2⟩ ⟨by decide, by decide⟩
      ⟨by decide, by decide⟩ (fun h => absurd h (by decide))⟩

/-- An empty fixed pool with alignment 128 whose bump allocator starts at
address 128; the junk found in untouched memory is byte 37. -/
def c1Pool0 : Fixed.PoolState := ⟨128, fun _ => [], fun _ => 37, 128⟩

/-- C1 -/
theorem c1_zero_fill_divergence :
    ∃ s1, Fixed.allocateWithZeros c1Pool0 1 = some (⟨128⟩, s1) ∧
      ∃ s4, Fixed.allocateWithZeros
              (Fixed.FixedBuf.drop (Fixed.FixedBuf.writeByte s1 ⟨128⟩ 0 255) ⟨128⟩) 1
            = some (⟨128⟩, s4) ∧
        Fixed.FixedBuf.asSlice s4 ⟨128⟩ = [255] ∧ (255 : Nat) ≠ 0 := by
  refine ⟨⟨128, fun _ => [], Fixed.zeroRange (fun _ => 37) 128 1, 256⟩, rfl, ?_⟩
  exact ⟨_, rfl, rfl, by decide⟩

/-- C6 counterexample -/
theorem c6_counterexample :
    ((allocateUninitialised ⟨8, fun _ => [], 1000, fun _ _ => 0⟩ 10).map
       fun r => (r.1.len, r.1.cap)) = some (10, 16) ∧ (10 : Nat) ≠ 16 :=
  ⟨rfl, by decide⟩

/-- C6 (amended) -/
theorem c6_amended_allocate_uninitialised (p : PoolState) (n : Nat)
    (hWF : p.WF) (hn : n ≤ 2 ^ 63) :
    ∃ b p', allocateUninitialised p n = some (b, p') ∧
      b.len = n ∧ b.cap = max 1 (nextPow2 n) ∧ b.len ≤ b.cap ∧
      (b.len = b.cap ↔ isPow2 n = true) := by
  obtain ⟨b, p', h1, h2, h3⟩ := allocate_spec p n hWF hn
  have hle : n ≤ b.cap := by
    rw [h2]
    exact le_nextPow2 n
  refine ⟨{ b with len := n }, p', ?_, rfl, ?_, ?_, ?_⟩
  · unfold allocateUninitialised
    rw [h1]
    unfold Buf.setLen
    simp [hle]
  · show b.cap = max 1 (nextPow2 n)
    rw [h2, Nat.max_eq_right (nextPow2_pos n)]
  · exact hle
  · show n = b.cap ↔ isPow2 n = true
    constructor
    · intro h
      rw [h2] at h
      obtain ⟨k, hk⟩ := nextPow2_isPow2 n
      exact (isPow2_iff n).2 ⟨k, by omega⟩
    · intro h
      rw [h2, nextPow2_of_isPow2 h]

/-- C6 witness -/
theorem c6_amended_allocate_uninitialised_witness :
    ((⟨8, fun _ => [], 1000, fun _ _ => 0⟩ : PoolState).WF ∧ 10 ≤ 2 ^ 63) ∧
    (∃ b p', allocateUninitialised ⟨8, fun _ => [], 1000, fun _ _ => 0⟩ 10 = some (b, p') ∧
       b.len = 10 ∧ b.cap = max 1 (nextPow2 10) ∧ b.len ≤ b.cap ∧
       (b.len = b.cap ↔ isPow2 10 = true)) :=
  ⟨⟨by unfold PoolState.WF; exact ⟨by decide, fun i blk h => by cases h⟩, by norm_num⟩,
    c6_amended_allocate_uninitialised ⟨8, fun _ => [], 1000, fun _ _ => 0⟩ 10
      (by unfold PoolState.WF; exact ⟨by decide, fun i blk h => by cases h⟩) (by norm_num)⟩

/-- An empty growable pool whose bump allocator starts at address 1000. -/
def c3Pool0 : PoolState := ⟨8, fun _ => [], 1000, fun _ _ => 0⟩

/-- `c3Pool0` after one fresh 1-byte allocation. -/
def c3Pool1 : PoolState := ⟨8, fun _ => [], 1001, fun _ _ => 0⟩

/-- `c3Pool1` after another fresh 1-byte allocation. -/
def c3Pool2 : PoolState := ⟨8, fun _ => [], 1002, fun _ _ => 0⟩

/-- C3 counterexample -/
theorem c3_counterexample :
    allocate c3Pool0 1 = some (⟨1000, [0], 0, 1⟩, c3Pool1) ∧
    allocate c3Pool1 1 = some (⟨1001, [0], 0, 1⟩, c3Pool2) ∧
    ((allocate (bufDrop ⟨1001, [0], 0, 1⟩ (bufDrop ⟨1000, [0], 0, 1⟩ c3Pool2)) 1).map
       fun r => r.1.addr) = some 1000 ∧
    (1000 : Nat) ≠ 1001 :=
  ⟨rfl, rfl, rfl, by decide⟩

/-- C3 (amended) -/
theorem c3_amended_recycle (b : Buf) (p : PoolState) (n : Nat)
    (hcap : nextPow2 n = b.cap) (hlt : b.cap < USIZE)
    (hempty : p.free (ilog2 b.cap) = []) (haddr : b.addr ≠ 0) :
    ∃ p', allocate (bufDrop b p) n = some (⟨b.addr, b.data, 0, b.cap⟩, p') := by
  have hq : (bufDrop b p).free (ilog2 b.cap) = [(b.addr, b.data)] := by
    unfold bufDrop setSlot
    simp [hempty]
  refine ⟨{ bufDrop b p with
              free := setSlot (bufDrop b p).free (ilog2 (nextPow2 n)) [] }, ?_⟩
  simp [allocate, hq, haddr, hcap, hlt]

/-- C3 witness -/
theorem c3_amended_recycle_witness :
    (nextPow2 1 = 1 ∧ 1 < USIZE ∧ c3Pool0.free (ilog2 1) = [] ∧ (1000 : Nat) ≠ 0) ∧
    (∃ p', allocate (bufDrop ⟨1000, [0], 0, 1⟩ c3Pool0) 1 =
       some (⟨1000, [0], 0, 1⟩, p')) :=
  ⟨⟨rfl, by decide, rfl, by decide⟩,
    c3_amended_recycle ⟨1000, [0], 0, 1⟩ c3Pool0 1 rfl (by decide) rfl (by decide)⟩

/-- C5 -/
theorem c5_truncate_divergence :
    (V0.Buf.truncate ⟨8, [1, 2, 3, 4], 3, 4⟩ 1).len = 3 ∧
    ((V0.Buf.truncate ⟨8, [1, 2, 3, 4], 3, 4⟩ 1).len = 1 → False) ∧
    (Buf.truncate ⟨8, [1, 2, 3, 4], 3, 4⟩ 1).len = 1 := by
  refine ⟨rfl, by decide, rfl⟩

/-- C9 -/
theorem c9_with_alignment (align : Nat) :
    ((Fixed.withAlignment align).isSome ↔ (64 < align ∧ isPow2 align = true)) ∧
    (isPow2 align = true → (64 < align ↔ 128 ≤ align)) := by
  constructor
  · unfold Fixed.withAlignment
    by_cases h1 : 64 < align
    · by_cases h2 : isPow2 align
      · simp [h1, h2]
      · simp [h1, h2]
    · simp [h1]
  · intro hp
    obtain ⟨k, hk⟩ := (isPow2_iff align).1 hp
    subst hk
    constructor
    · intro h
      have hk7 : 7 ≤ k := by
        by_contra hc
        have hle : 2 ^ k ≤ 2 ^ 6 := Nat.pow_le_pow_right (by omega) (by omega)
        norm_num at hle
        omega
      calc (128 : Nat) = 2 ^ 7 := by norm_num
        _ ≤ 2 ^ k := Nat.pow_le_pow_right (by omega) hk7
    · intro h
      omega

/-- C9 witness -/
theorem c9_with_alignment_witness :
    ((Fixed.withAlignment 128).isSome ↔ (64 < 128 ∧ isPow2 128 = true)) ∧
    (isPow2 128 = true → (64 < 128 ↔ 128 ≤ 128)) :=
  c9_with_alignment 128

/-- C10 -/
theorem c10_extend_from_within_frame :
    (∀ (b : Buf) (s e : Nat) (b' : Buf), b.len ≤ b.cap → b.data.length = b.cap →
       b.extendFromWithin s e = .ok b' → b'.len = b.len ∧ b'.asSlice = b.asSlice) ∧
    (∀ (b : V0.Buf) (s e : Nat) (b' : V0.Buf), b.len ≤ b.cap → b.data.length = b.cap →
       b.extendFromWithin s e = .ok b' → b'.len = b.len ∧ b'.asSlice = b.asSlice) := by
  constructor
  · intro b s e b' hlen hdata hok
    unfold Buf.extendFromWithin at hok
    split at hok
    · cases hok
      refine ⟨rfl, ?_⟩
      show (b.data.take b.len ++ _ ++ _).take b.len = b.data.take b.len
      rw [List.append_assoc]
      exact take_len_write_after _ _ _ (by omega)
    · cases hok
  · intro b s e b' hlen hdata hok
    unfold V0.Buf.extendFromWithin at hok
    split at hok
    · cases hok
      refine ⟨rfl, ?_⟩
      show (b.data.take b.len ++ _ ++ _).take b.len = b.data.take b.len
      rw [List.append_assoc]
      exact take_len_write_after _ _ _ (by omega)
    · cases hok

/-- C10 witness -/
theorem c10_extend_from_within_frame_witness :
    (2 ≤ 4 ∧ ([1, 2, 3, 0] : List Nat).length = 4 ∧
      Buf.extendFromWithin ⟨8, [1, 2, 3, 0], 2, 4⟩ 0 1 = .ok ⟨8, [1, 2, 1, 0], 2, 4⟩) ∧
    ((⟨8, [1, 2, 1, 0], 2, 4⟩ : Buf).len = (⟨8, [1, 2, 3, 0], 2, 4⟩ : Buf).len ∧
      (⟨8, [1, 2, 1, 0], 2, 4⟩ : Buf).asSlice = (⟨8, [1, 2, 3, 0], 2, 4⟩ : Buf).asSlice) :=
  ⟨⟨by omega, by decide, rfl⟩,
    c10_extend_from_within_frame.1 ⟨8, [1, 2, 3, 0], 2, 4⟩ 0 1 ⟨8, [1, 2, 1, 0], 2, 4⟩
      (by decide) (by decide) rfl⟩

end Bufpool
